import Mathlib

/-!
Shallow embedding of the libvintf version algebra and HAL requirement
matching code (`VersionRange.h`, `MatrixHal.cpp`, `ManifestInstance.cpp`,
`parse_string.cpp`, `assemble_vintf.cpp`), together with theorems settling
the specification claims about it.
-/

set_option maxRecDepth 4000

/-- Modelled from the spec: `Version` is `(major: unsigned, minor: unsigned)`
(`Version.h` is not part of this slice; §3 of the design). -/
structure Version where
  majorVer : Nat
  minorVer : Nat
deriving DecidableEq

/-- Modelled from the spec: the total order on `Version` compares major,
then minor (§3: "Total order: compare major, then minor"). -/
def Version.leBool (a b : Version) : Bool :=
  decide (a.majorVer < b.majorVer) ||
    (decide (a.majorVer = b.majorVer) && decide (a.minorVer ≤ b.minorVer))

/-- Modelled from the spec: strict version of the order on `Version`. -/
def Version.ltBool (a b : Version) : Bool :=
  decide (a.majorVer < b.majorVer) ||
    (decide (a.majorVer = b.majorVer) && decide (a.minorVer < b.minorVer))

/-- `VersionRange` from `VersionRange.h`: `(majorVer, minMinor, maxMinor)`. -/
structure VersionRange where
  majorVer : Nat
  minMinor : Nat
  maxMinor : Nat
deriving DecidableEq

/-- `VersionRange::minVer`. -/
def VersionRange.minVer (r : VersionRange) : Version :=
  ⟨r.majorVer, r.minMinor⟩

/-- `VersionRange::maxVer`. -/
def VersionRange.maxVer (r : VersionRange) : Version :=
  ⟨r.majorVer, r.maxMinor⟩

/-- `VersionRange::contains`: `minVer() <= ver && ver <= maxVer()`,
comparing whole `Version` values. -/
def VersionRange.containsB (r : VersionRange) (v : Version) : Bool :=
  Version.leBool r.minVer v && Version.leBool v r.maxVer

/-- `VersionRange::supportedBy`:
`majorVer == ver.majorVer && minMinor <= ver.minorVer`. -/
def VersionRange.supportedBy (r : VersionRange) (v : Version) : Bool :=
  decide (r.majorVer = v.majorVer) && decide (r.minMinor ≤ v.minorVer)

/-- `VersionRange::overlaps`: `majorVer == other.majorVer &&
minMinor <= other.maxMinor && other.minMinor <= maxMinor`. -/
def VersionRange.overlaps (r other : VersionRange) : Bool :=
  decide (r.majorVer = other.majorVer) && decide (r.minMinor ≤ other.maxMinor) &&
    decide (other.minMinor ≤ r.maxMinor)

/-- One step of `MatrixHal::insertVersionRanges`: find the first existing
range that overlaps the incoming one and widen it to cover both
(`std::min`/`std::max` of the minor bounds); if none overlaps, append the
incoming range at the end. -/
def insertOneVR : List VersionRange → VersionRange → List VersionRange
  | [], o => [o]
  | e :: rest, o =>
    if VersionRange.overlaps e o then
      ⟨e.majorVer, min e.minMinor o.minMinor, max e.maxMinor o.maxMinor⟩ :: rest
    else
      e :: insertOneVR rest o

/-- `MatrixHal::insertVersionRanges`: fold every range of `other` into
`this.versionRanges` with `insertOneVR`. -/
def insertVersionRanges (t other : List VersionRange) : List VersionRange :=
  other.foldl insertOneVR t

/-- No two ranges in the list overlap (same major version with intersecting
minor intervals), in the sense of `VersionRange::overlaps`. -/
def noOverlapB : List VersionRange → Bool
  | [] => true
  | x :: xs => xs.all (fun y => !(VersionRange.overlaps x y)) && noOverlapB xs

/-- `r` covers `s`: same major version and the minor interval of `r`
includes that of `s`. -/
def coversVR (r s : VersionRange) : Prop :=
  r.majorVer = s.majorVer ∧ r.minMinor ≤ s.minMinor ∧ s.maxMinor ≤ r.maxMinor

/-- `HalFormat` from `HalFormat.h` (declaration not in this slice; the
three variants and their underlying order come from the spec §9). -/
inductive HalFormat where
  | HIDL
  | NATIVE
  | AIDL
deriving DecidableEq

/-- Underlying `size_t` value of a `HalFormat` enumerator. -/
def HalFormat.toNat : HalFormat → Nat
  | .HIDL => 0
  | .NATIVE => 1
  | .AIDL => 2

/-- Modelled from the spec: one interface of a HAL Requirement Set — its
name and the set of declared instance names, kept as the sorted unique
sequence a `std::set<std::string>` holds (`HalInterface.h` is not in this
slice; §3: `map<interfaceName, set<instanceNameOrPattern>>`). -/
structure HalInterface where
  name : String
  instances : List String
deriving DecidableEq

/-- Modelled from the spec: a fully-qualified instance coordinate
`package@version::interface/instance` (`FqInstance.h` is not in this
slice; §3 "Instance Identifier"). -/
structure FqInstance where
  package : String
  version : Version
  interface : String
  instanceName : String
deriving DecidableEq

/-- Modelled from the spec: one expanded requirement obligation — the
fully-qualified coordinate together with the version range it came from
and the optional flag (`MatrixInstance.h` is not in this slice). -/
structure MatrixInstance where
  fq : FqInstance
  range : VersionRange
  optionalFlag : Bool
deriving DecidableEq

/-- Modelled from the spec: `MatrixInstance::isSatisfiedBy` — a provided
instance satisfies an obligation when the package, interface and instance
names match and the provided version is `supportedBy` the obligation's
range (§4.3; instance matching is modelled on exact names). -/
def MatrixInstance.isSatisfiedBy (m : MatrixInstance) (p : FqInstance) : Bool :=
  decide (m.fq.package = p.package) && VersionRange.supportedBy m.range p.version &&
    decide (m.fq.interface = p.interface) && decide (m.fq.instanceName = p.instanceName)

/-- `MatrixHal` from `MatrixHal.h` (fields per the spec §3 "HAL
Requirement Set"); the interfaces map is kept as its sorted association
sequence. -/
structure MatrixHal where
  format : HalFormat
  name : String
  versionRanges : List VersionRange
  optionalFlag : Bool
  updatableViaApex : Option String
  interfaces : List (String × HalInterface)
deriving DecidableEq

/-- `MatrixHal::operator==` from `MatrixHal.cpp`: compares `format`,
`name`, `versionRanges` and `interfaces`; the optional flag (and the
updatable-via-apex field) is deliberately not compared. -/
def MatrixHal.eqBool (a other : MatrixHal) : Bool :=
  if a.format ≠ other.format then false
  else if a.name ≠ other.name then false
  else if a.versionRanges ≠ other.versionRanges then false
  else if a.interfaces ≠ other.interfaces then false
  else true

/-- `MatrixHal::setOptional`. -/
def MatrixHal.setOptional (a : MatrixHal) (o : Bool) : MatrixHal :=
  { a with optionalFlag := o }

/-- `interfaces.find(name)` on the association sequence. -/
def MatrixHal.findInterface (a : MatrixHal) (n : String) : Option HalInterface :=
  (a.interfaces.find? (fun p => p.1 = n)).map (·.2)

/-- The `std::includes` algorithm on two sorted ranges, as specialized to
`std::set<std::string>` iterators in `MatrixHal::containsInstances`. -/
def includesSorted : List String → List String → Bool
  | _, [] => true
  | [], _ :: _ => false
  | x :: xs, y :: ys =>
    if y < x then false
    else if x < y then includesSorted xs (y :: ys)
    else includesSorted xs ys

/-- `MatrixHal::containsInstances` from `MatrixHal.cpp`: for every
interface of `other`, look it up in `this` and check
`std::includes(thisInstances, otherInstances)`; any miss returns false. -/
def MatrixHal.containsInstances (a other : MatrixHal) : Bool :=
  other.interfaces.all (fun p =>
    match a.findInterface p.1 with
    | none => false
    | some thisHi => includesSorted thisHi.instances p.2.instances)

/-- `MatrixHal::forEachInstance(vr, func)` visits, for each interface of
the map and each of its instances, the `MatrixInstance` built from the
HAL name, the range and the interface/instance pair; this is its list of
visited obligations. -/
def MatrixHal.expand (a : MatrixHal) (vr : VersionRange) : List MatrixInstance :=
  a.interfaces.flatMap (fun p =>
    p.2.instances.map (fun inst =>
      ⟨⟨a.name, ⟨vr.majorVer, vr.minMinor⟩, p.2.name, inst⟩, vr, a.optionalFlag⟩))

/-- The visiting loop of `MatrixHal::isCompatible(vr, ...)`: walk the
obligations, recording `hasAnyInstance` and `versionUnsatisfied`, and
break at the first unsatisfied obligation. Returns
`(hasAnyInstance, versionUnsatisfied)`. -/
def visitInstances (P : List FqInstance) : List MatrixInstance → Bool × Bool
  | [] => (false, false)
  | m :: ms =>
    if P.any (fun p => m.isSatisfiedBy p) then
      (true, (visitInstances P ms).2)
    else
      (true, true)

/-- `MatrixHal::isCompatible(vr, providedInstances, providedVersions)`:
if any obligation was visited, succeed iff none was unsatisfied;
otherwise fall back to checking that some provided version is
`supportedBy` the range. -/
def MatrixHal.isCompatibleRange (a : MatrixHal) (vr : VersionRange)
    (P : List FqInstance) (V : List Version) : Bool :=
  if (visitInstances P (a.expand vr)).1 then !(visitInstances P (a.expand vr)).2
  else V.any (fun v => VersionRange.supportedBy vr v)

/-- `MatrixHal::isCompatible(providedInstances, providedVersions)`:
`std::any_of` over the version ranges. -/
def MatrixHal.isCompatible (a : MatrixHal) (P : List FqInstance) (V : List Version) : Bool :=
  a.versionRanges.any (fun vr => a.isCompatibleRange vr P V)

/-- `Transport` from `TransportArch.h` (declaration not in this slice;
the spec §3 "transport binding"). -/
inductive Transport where
  | EMPTY
  | PASSTHROUGH
  | HWBINDER
  | INET
deriving DecidableEq

/-- Underlying enumerator value of `Transport`. -/
def Transport.toNat : Transport → Nat
  | .EMPTY => 0
  | .PASSTHROUGH => 1
  | .HWBINDER => 2
  | .INET => 3

/-- `Arch` from `TransportArch.h` (declaration not in this slice). -/
inductive Arch where
  | ARCH_EMPTY
  | ARCH_32
  | ARCH_64
  | ARCH_32_64
deriving DecidableEq

/-- Underlying enumerator value of `Arch`. -/
def Arch.toNat : Arch → Nat
  | .ARCH_EMPTY => 0
  | .ARCH_32 => 1
  | .ARCH_64 => 2
  | .ARCH_32_64 => 3

/-- `std::optional` as an order: `nullopt` below every engaged value. -/
def optKeyS : Option String → WithBot String
  | none => ⊥
  | some s => (s : WithBot String)

/-- `std::optional<uint64_t>` as an order. -/
def optKeyN : Option Nat → WithBot Nat
  | none => ⊥
  | some n => (n : WithBot Nat)

/-- `std::optional::operator<`: `nullopt` precedes every engaged value;
engaged values compare by content. -/
def optStrLtBool (a b : Option String) : Bool :=
  decide (optKeyS a < optKeyS b)

/-- Modelled from the spec: the lexicographic key of an Instance
Identifier — package, then version (major, minor), then interface, then
instance (§3: "a total order ... lexicographically over the four
fields"). -/
def fqKey (f : FqInstance) : String ×ₗ ((Nat ×ₗ Nat) ×ₗ (String ×ₗ String)) :=
  toLex (f.package,
    toLex (toLex (f.version.majorVer, f.version.minorVer),
      toLex (f.interface, f.instanceName)))

/-- Modelled from the spec: `FqInstance::operator<`, lexicographic over
the four coordinate fields. -/
def FqInstance.ltBool (a b : FqInstance) : Bool :=
  decide (fqKey a < fqKey b)

/-- `TransportArch` from `TransportArch.h` (declaration not in this
slice): transport, arch, optional ip and port. -/
structure TransportArch where
  transport : Transport
  arch : Arch
  ip : Option String
  port : Option Nat
deriving DecidableEq

/-- Modelled from the spec: the lexicographic key of a `TransportArch`
(the `std::tuple`-style member order). -/
def taKey (t : TransportArch) : Nat ×ₗ (Nat ×ₗ (WithBot String ×ₗ WithBot Nat)) :=
  toLex (t.transport.toNat, toLex (t.arch.toNat, toLex (optKeyS t.ip, optKeyN t.port)))

/-- Modelled from the spec: `TransportArch::operator<`. -/
def TransportArch.ltBool (a b : TransportArch) : Bool :=
  decide (taKey a < taKey b)

/-- `operator<` on the `HalFormat` enum: by underlying value. -/
def HalFormat.ltBool (a b : HalFormat) : Bool :=
  decide (a.toNat < b.toNat)

/-- `operator<` on `bool`: `false < true`. -/
def boolLtBool (a b : Bool) : Bool :=
  decide (a < b)

/-- `ManifestInstance` from `ManifestInstance.h`: the fully-qualified
coordinate plus transport binding, format, updatable-via-apex,
accessor and updatable-via-system members. -/
structure ManifestInstance where
  mFqInstance : FqInstance
  mTransportArch : TransportArch
  mHalFormat : HalFormat
  mUpdatableViaApex : Option String
  mAccessor : Option String
  mUpdatableViaSystem : Bool
deriving DecidableEq

/-- `ManifestInstance::operator==` from `ManifestInstance.cpp`: compares
`mFqInstance`, `mTransportArch`, `mHalFormat`, `mUpdatableViaApex`,
`mUpdatableViaSystem` and `mAccessor`. -/
def ManifestInstance.eqBool (a other : ManifestInstance) : Bool :=
  decide (a.mFqInstance = other.mFqInstance) &&
    decide (a.mTransportArch = other.mTransportArch) &&
    decide (a.mHalFormat = other.mHalFormat) &&
    decide (a.mUpdatableViaApex = other.mUpdatableViaApex) &&
    decide (a.mUpdatableViaSystem = other.mUpdatableViaSystem) &&
    decide (a.mAccessor = other.mAccessor)

/-- `ManifestInstance::operator<` from `ManifestInstance.cpp`: the
six-step lexicographic chain over `mFqInstance`, `mTransportArch`,
`mHalFormat`, `mUpdatableViaApex`, `mUpdatableViaSystem`, `mAccessor`. -/
def ManifestInstance.ltBool (a other : ManifestInstance) : Bool :=
  if FqInstance.ltBool a.mFqInstance other.mFqInstance then true
  else if FqInstance.ltBool other.mFqInstance a.mFqInstance then false
  else if TransportArch.ltBool a.mTransportArch other.mTransportArch then true
  else if TransportArch.ltBool other.mTransportArch a.mTransportArch then false
  else if HalFormat.ltBool a.mHalFormat other.mHalFormat then true
  else if HalFormat.ltBool other.mHalFormat a.mHalFormat then false
  else if optStrLtBool a.mUpdatableViaApex other.mUpdatableViaApex then true
  else if optStrLtBool other.mUpdatableViaApex a.mUpdatableViaApex then false
  else if boolLtBool a.mUpdatableViaSystem other.mUpdatableViaSystem then true
  else if boolLtBool other.mUpdatableViaSystem a.mUpdatableViaSystem then false
  else optStrLtBool a.mAccessor other.mAccessor

/-- The full lexicographic key of a `ManifestInstance` in the member
order compared by `operator<`. -/
def miKey (a : ManifestInstance) :
    (String ×ₗ ((Nat ×ₗ Nat) ×ₗ (String ×ₗ String))) ×ₗ
      ((Nat ×ₗ (Nat ×ₗ (WithBot String ×ₗ WithBot Nat))) ×ₗ
        (Nat ×ₗ (WithBot String ×ₗ (Bool ×ₗ WithBot String)))) :=
  toLex (fqKey a.mFqInstance,
    toLex (taKey a.mTransportArch,
      toLex (a.mHalFormat.toNat,
        toLex (optKeyS a.mUpdatableViaApex,
          toLex (a.mUpdatableViaSystem, optKeyS a.mAccessor)))))

/-- A sample fully-qualified instance coordinate. -/
def fq0 : FqInstance := ⟨"android.hardware.foo", ⟨1, 0⟩, "IFoo", "default"⟩

/-- A sample transport binding. -/
def ta0 : TransportArch := ⟨Transport.HWBINDER, Arch.ARCH_EMPTY, none, none⟩

/-- A sample `ManifestInstance` in HIDL format. -/
def miA : ManifestInstance := ⟨fq0, ta0, HalFormat.HIDL, none, none, false⟩

/-- `miA` with the format changed to NATIVE — same four coordinate
fields. -/
def miB : ManifestInstance := ⟨fq0, ta0, HalFormat.NATIVE, none, none, false⟩

/-- `miA` with the format changed to AIDL — same four coordinate
fields. -/
def miC : ManifestInstance := ⟨fq0, ta0, HalFormat.AIDL, none, none, false⟩

/-- `Tristate` from `KernelConfigTypedValue.h` (declaration not in this
slice; the spec §3: `yes|no|module`). -/
inductive Tristate where
  | YES
  | NO
  | MODULE
deriving DecidableEq

/-- Modelled from the spec: a typed kernel-config value — string,
64-bit integer, tristate or closed integer range (§3 "Kernel
Requirement"; `KernelConfigTypedValue.h` is not in this slice). -/
inductive KernelConfigTypedValue where
  | stringValue (s : String)
  | integerValue (i : Int)
  | tristateValue (t : Tristate)
  | rangeValue (lo hi : Nat)
deriving DecidableEq

/-- `KernelConfig`: a `(key, typed value)` pair. -/
abbrev KernelConfig := String × KernelConfigTypedValue

/-- The C-locale `isspace` set used by `strtoull` when skipping leading
whitespace. -/
def isSpaceC (c : Char) : Bool :=
  decide (c.toNat = 32) || decide (c.toNat = 9) || decide (c.toNat = 10) ||
    decide (c.toNat = 11) || decide (c.toNat = 12) || decide (c.toNat = 13)

/-- The digit value of `c` in the given base, as `strtoull` accepts it
(`0-9`, `a-z`, `A-Z`), or `none` when `c` is not a digit of that base. -/
def digitValB (base : Nat) (c : Char) : Option Nat :=
  if 48 ≤ c.toNat ∧ c.toNat ≤ 57 then
    if c.toNat - 48 < base then some (c.toNat - 48) else none
  else if 97 ≤ c.toNat ∧ c.toNat ≤ 122 then
    if c.toNat - 87 < base then some (c.toNat - 87) else none
  else if 65 ≤ c.toNat ∧ c.toNat ≤ 90 then
    if c.toNat - 55 < base then some (c.toNat - 55) else none
  else none

/-- Skip the leading whitespace, as `strtoull` does. -/
def dropSpaces : List Char → List Char
  | [] => []
  | c :: cs => if isSpaceC c then dropSpaces cs else c :: cs

/-- Read an optional sign, as `strtoull` does; returns whether the
number is negated and the remaining characters. -/
def readSign : List Char → Bool × List Char
  | [] => (false, [])
  | c :: cs => if c = '-' then (true, cs) else if c = '+' then (false, cs) else (false, c :: cs)

/-- Accumulate digits of the given base starting from `acc`, as the
`strtoull` conversion loop does; returns the (unbounded) accumulated
value, whether any digit was consumed, and the remaining characters. -/
def takeDigits (base : Nat) : List Char → Nat → Nat × Bool × List Char
  | [], acc => (acc, false, [])
  | c :: cs, acc =>
    match digitValB base c with
    | none => (acc, false, c :: cs)
    | some d =>
      match takeDigits base cs (acc * base + d) with
      | (v, _, rest) => (v, true, rest)

/-- The base-detection and conversion core of `strtoull(s, &end, 0)`:
`0x`/`0X` followed by a hex digit parses hex, a leading `0` parses
octal, anything else parses decimal; returns the unbounded magnitude,
the sign flag and the remaining characters, or `none` when no digit is
converted (then `end == nptr`). -/
def strtoullBody (neg : Bool) : List Char → Option (Nat × Bool × List Char)
  | [] => none
  | [c] =>
    if c = '0' then some (0, neg, [])
    else
      match takeDigits 10 [c] 0 with
      | (v, true, r) => some (v, neg, r)
      | (_, false, _) => none
  | c :: c2 :: rest =>
    if c = '0' then
      if c2 = 'x' ∨ c2 = 'X' then
        match rest with
        | [] => some (0, neg, c2 :: rest)
        | d :: _ =>
          if (digitValB 16 d).isSome then
            match takeDigits 16 rest 0 with
            | (v, _, r) => some (v, neg, r)
          else some (0, neg, c2 :: rest)
      else
        match takeDigits 8 (c2 :: rest) 0 with
        | (v, _, r) => some (v, neg, r)
    else
      match takeDigits 10 (c :: c2 :: rest) 0 with
      | (v, true, r) => some (v, neg, r)
      | (_, false, _) => none

/-- Modelled from the spec: `strtoull(s.c_str(), &end, 0)` (libc, not in
this slice) — skip whitespace, read an optional sign, convert by the
detected base. `none` when no conversion is performed. -/
def strtoullM (cs : List Char) : Option (Nat × Bool × List Char) :=
  match readSign (dropSpaces cs) with
  | (neg, cs2) => strtoullBody neg cs2

/-- Reinterpret an unsigned 64-bit value as the two's-complement
`int64_t` with the same bit pattern (`static_cast<int64_t>`). -/
def int64OfNatWrap (u : Nat) : Int :=
  if u % 2 ^ 64 < 2 ^ 63 then ((u % 2 ^ 64 : Nat) : Int) else ((u % 2 ^ 64 : Nat) : Int) - 2 ^ 64

/-- `parseKernelConfigIntHelper<int64_t>` from `parse_string.cpp`:
succeed when `errno == 0` (no overflow past `ULLONG_MAX`), at least one
character was converted and the whole string was consumed; negate
modulo `2^64` when a minus sign was read, then truncate to `int64_t`. -/
def parseKernelConfigInt (s : String) : Option Int :=
  match strtoullM s.toList with
  | some (v, neg, []) =>
    if v < 2 ^ 64 then
      some (int64OfNatWrap (if neg then (2 ^ 64 - v % 2 ^ 64) % 2 ^ 64 else v))
    else none
  | _ => none

/-- Fold digits of the given base onto an accumulator. -/
def digitsFold (base acc : Nat) (ds : List Char) : Nat :=
  ds.foldl (fun a c => a * base + (digitValB base c).getD 0) acc

/-- The numeric value of a digit string in the given base. -/
def natOfDigitsB (base : Nat) (ds : List Char) : Nat :=
  digitsFold base 0 ds

/-- `s` is a plain decimal numeral denoting `n`. -/
def decimalDenotes (s : String) (n : Nat) : Prop :=
  s.toList ≠ [] ∧ (∀ c ∈ s.toList, 48 ≤ c.toNat ∧ c.toNat ≤ 57) ∧ natOfDigitsB 10 s.toList = n

/-- `num` is a hexadecimal numeral of the base-0 grammar (`0x`/`0X`
followed by at least one hex digit) with value `v`. -/
def hexNumeral (num : List Char) (v : Nat) : Prop :=
  ∃ x ds, (x = 'x' ∨ x = 'X') ∧ num = '0' :: x :: ds ∧ ds ≠ [] ∧
    (∀ c ∈ ds, (digitValB 16 c).isSome = true) ∧ v = natOfDigitsB 16 ds

/-- `num` is an octal numeral of the base-0 grammar (`0` followed by
octal digits, possibly none) with value `v`. -/
def octNumeral (num : List Char) (v : Nat) : Prop :=
  ∃ ds, num = '0' :: ds ∧ (∀ c ∈ ds, (digitValB 8 c).isSome = true) ∧ v = natOfDigitsB 8 ds

/-- `num` is a decimal numeral of the base-0 grammar (nonempty, no
leading zero — that case is octal) with value `v`. -/
def decNumeral (num : List Char) (v : Nat) : Prop :=
  num ≠ [] ∧ (∀ c ∈ num, (digitValB 10 c).isSome = true) ∧ num.head? ≠ some '0' ∧
    v = natOfDigitsB 10 num

/-- `s` denotes the integer `n` under the `strtoull` base-0 syntax:
optional whitespace, an optional sign, then a hex, octal or decimal
numeral spanning the rest of the string. -/
def base0Denotes (s : String) (n : Int) : Prop :=
  ∃ (w sg num : List Char) (v : Nat),
    s.toList = w ++ sg ++ num ∧
    (∀ c ∈ w, isSpaceC c = true) ∧
    (sg = [] ∨ sg = ['+'] ∨ sg = ['-']) ∧
    (hexNumeral num v ∨ octNumeral num v ∨ decNumeral num v) ∧
    n = (if sg = ['-'] then -(v : Int) else (v : Int))

/-- `startsWith` on character lists: the first argument is the pattern. -/
def startsWithL : List Char → List Char → Bool
  | [], _ => true
  | _ :: _, [] => false
  | p :: ps, c :: cs => decide (p = c) && startsWithL ps cs

/-- `endsWith` on character lists: the first argument is the pattern. -/
def endsWithL (p l : List Char) : Bool :=
  startsWithL p.reverse l.reverse

/-- The basename of a path: everything after the last `/` or `\`
(`android::base::Basename` / `getFileNameFromPath`). -/
def basenameL (cs : List Char) : List Char :=
  (cs.reverse.takeWhile (fun c => decide (c ≠ '/') && decide (c ≠ '\\'))).reverse

/-- `android::base::Basename` on strings. -/
def basename (s : String) : String :=
  ⟨basenameL s.toList⟩

/-- `gConfigPrefix` of `assemble_vintf.cpp`. -/
def gConfigHead : List Char := "android-base-".toList

/-- `gConfigSuffix` of `assemble_vintf.cpp`. -/
def gConfigEnd : List Char := ".cfg".toList

/-- `AssembleVintf::isCommonConfig`: the basename is `android-base.cfg`. -/
def isCommonConfig (path : String) : Bool :=
  decide (basename path = "android-base.cfg")

/-- C-locale `isalnum`. -/
def isAlnumC (c : Char) : Bool :=
  decide (48 ≤ c.toNat ∧ c.toNat ≤ 57) || decide (65 ≤ c.toNat ∧ c.toNat ≤ 90) ||
    decide (97 ≤ c.toNat ∧ c.toNat ≤ 122)

/-- C-locale `toupper`. -/
def toUpperC (c : Char) : Char :=
  if 97 ≤ c.toNat ∧ c.toNat ≤ 122 then Char.ofNat (c.toNat - 32) else c

/-- The character transformation loop of `AssembleVintf::generateCondition`:
`-` becomes `_`, alphanumerics are upper-cased, anything else fails. -/
def condName : List Char → Option (List Char)
  | [] => some []
  | c :: cs =>
    if c = '-' then (condName cs).map (fun r => '_' :: r)
    else if isAlnumC c then (condName cs).map (fun r => toUpperC c :: r)
    else none

/-- `AssembleVintf::generateCondition` from `assemble_vintf.cpp`: from a
file named `android-base-<sub>.cfg`, build the condition
`CONFIG_<SUB> = y`; `none` on any malformed name. -/
def generateCondition (path : String) : Option KernelConfig :=
  if (basenameL path.toList).length ≤ gConfigHead.length + gConfigEnd.length then none
  else if !(startsWithL gConfigHead (basenameL path.toList)) then none
  else if !(endsWithL gConfigEnd (basenameL path.toList)) then none
  else
    match condName (((basenameL path.toList).drop gConfigHead.length).take
        ((basenameL path.toList).length - gConfigHead.length - gConfigEnd.length)) with
    | none => none
    | some [] => none
    | some (r :: rs) =>
      some (⟨"CONFIG_".toList ++ (r :: rs)⟩, KernelConfigTypedValue.tristateValue Tristate.YES)

/-- The loop of `AssembleVintf::parseFilesForKernelConfigs`, with the
per-file parsing (`KernelConfigParser` plus file reads) abstracted as
`pf`; carries the accumulated common configs, the found-common flag, the
conditioned output list and the running success flag. The loop body runs
only while the flag is still true (`while (ret && pathIter != NULL)`),
so inside it `ret` is true and `ret &= x` is just `x`. -/
def parseFilesLoop (pf : String → Option (List KernelConfig)) :
    List String → List KernelConfig → Bool → List (Option KernelConfig × List KernelConfig) →
      Bool → List KernelConfig × Bool × List (Option KernelConfig × List KernelConfig) × Bool
  | [], common, found, out, ret => (common, found, out, ret)
  | p :: ps, common, found, out, ret =>
    if ret then
      if isCommonConfig p then
        match pf p with
        | some cfgs => parseFilesLoop pf ps (common ++ cfgs) true out ret
        | none => parseFilesLoop pf ps common true out false
      else
        match pf p with
        | some cfgs =>
          parseFilesLoop pf ps common found
            (if (generateCondition p).isSome then out ++ [(generateCondition p, cfgs)] else out)
            ((generateCondition p).isSome)
        | none => parseFilesLoop pf ps common found out false
    else (common, found, out, ret)

/-- `AssembleVintf::parseFilesForKernelConfigs` over the already-split
path list: run the loop, require a common config to have been found, and
put the unconditional common configuration first. -/
def parseFilesForKernelConfigs (pf : String → Option (List KernelConfig))
    (paths : List String) :
    List (Option KernelConfig × List KernelConfig) × Bool :=
  match parseFilesLoop pf paths [] false [] true with
  | (common, found, out, ret) => ((none, common) :: out, ret && found)

/-- `KernelVersion`: the `version.major.minor` triple. -/
structure KernelVersion where
  version : Nat
  majorRev : Nat
  minorRev : Nat
deriving DecidableEq

/-- `MatrixKernel`: one kernel requirement entry — version, gating
conditions and required configs. -/
structure MatrixKernel where
  mVersion : KernelVersion
  mConditions : List KernelConfig
  mConfigs : List KernelConfig
deriving DecidableEq

/-- The conditions pushed onto a fresh `MatrixKernel`: nothing for the
common entry, the single generated condition otherwise. -/
def condList : Option KernelConfig → List KernelConfig
  | none => []
  | some c => [c]

/-- One `MatrixKernel` built by
`AssembleVintf::assembleFrameworkCompatibilityMatrixKernels` from a
conditioned config of kernel version `v`. -/
def toMatrixKernel (v : Version) (cc : Option KernelConfig × List KernelConfig) : MatrixKernel :=
  ⟨⟨v.majorVer, v.minorVer, 0⟩, condList cc.1, cc.2⟩

/-- `AssembleVintf::assembleFrameworkCompatibilityMatrixKernels` over
`mKernels` (hard-coded kernels already cleared): for each kernel
version, parse its config files and append one `MatrixKernel` per
conditioned config; fail if any parse fails. -/
def assembleFrameworkKernels (pf : String → Option (List KernelConfig)) :
    List (Version × List String) → Option (List MatrixKernel)
  | [] => some []
  | (v, paths) :: rest =>
    match parseFilesForKernelConfigs pf paths with
    | (ccs, true) =>
      match assembleFrameworkKernels pf rest with
      | some ks => some (ccs.map (toMatrixKernel v) ++ ks)
      | none => none
    | (_, false) => none

/-- A per-file parser stub that always succeeds with no configs. -/
def pfEmpty : String → Option (List KernelConfig) := fun _ => some []

/-- Sample kernel-config path list. -/
def kpaths0 : List String := ["android-base.cfg", "android-base-foo.cfg"]

/-- The condition generated from `android-base-foo.cfg`. -/
def kcfgFoo : KernelConfig := ("CONFIG_FOO", KernelConfigTypedValue.tristateValue Tristate.YES)

/-- The kernel entries assembled from `kpaths0` at version 4.14. -/
def kres0 : List MatrixKernel :=
  [⟨⟨4, 14, 0⟩, [], []⟩, ⟨⟨4, 14, 0⟩, [kcfgFoo], []⟩]

theorem coversVR_refl (r : VersionRange) : coversVR r r :=
  ⟨rfl, le_refl _, le_refl _⟩

theorem coversVR_trans {a b c : VersionRange} (h1 : coversVR a b) (h2 : coversVR b c) :
    coversVR a c :=
  ⟨h1.1.trans h2.1, h1.2.1.trans h2.2.1, h2.2.2.trans h1.2.2⟩

theorem coversVR_widen (e o : VersionRange) :
    coversVR ⟨e.majorVer, min e.minMinor o.minMinor, max e.maxMinor o.maxMinor⟩ e :=
  ⟨rfl, min_le_left _ _, le_max_left _ _⟩

theorem overlaps_eq_decide (a b : VersionRange) :
    VersionRange.overlaps a b =
      decide (a.majorVer = b.majorVer ∧ a.minMinor ≤ b.maxMinor ∧ b.minMinor ≤ a.maxMinor) := by
  by_cases h1 : a.majorVer = b.majorVer <;> by_cases h2 : a.minMinor ≤ b.maxMinor <;>
    by_cases h3 : b.minMinor ≤ a.maxMinor <;>
    simp [VersionRange.overlaps, h1, h2, h3]

theorem insertOneVR_self (acc : List VersionRange) (o : VersionRange) :
    ∃ r ∈ insertOneVR acc o, coversVR r o := by
  induction acc with
  | nil => exact ⟨o, by simp [insertOneVR], coversVR_refl o⟩
  | cons e rest ih =>
    by_cases h : VersionRange.overlaps e o = true
    · refine ⟨⟨e.majorVer, min e.minMinor o.minMinor, max e.maxMinor o.maxMinor⟩, ?_, ?_⟩
      · simp [insertOneVR, h]
      · have hmaj : e.majorVer = o.majorVer := by
          have := h
          simp only [VersionRange.overlaps, Bool.and_eq_true, decide_eq_true_eq] at this
          exact this.1.1
        exact ⟨hmaj, min_le_right _ _, le_max_right _ _⟩
    · obtain ⟨r, hr, hcov⟩ := ih
      exact ⟨r, by simp [insertOneVR, h, hr], hcov⟩

theorem insertOneVR_mono (acc : List VersionRange) (o : VersionRange) {s : VersionRange}
    (h : ∃ r ∈ acc, coversVR r s) : ∃ r ∈ insertOneVR acc o, coversVR r s := by
  induction acc with
  | nil => simp at h
  | cons e rest ih =>
    obtain ⟨r, hr, hcov⟩ := h
    by_cases hov : VersionRange.overlaps e o = true
    · rcases List.mem_cons.mp hr with heq | hmem
      · refine ⟨⟨e.majorVer, min e.minMinor o.minMinor, max e.maxMinor o.maxMinor⟩, ?_, ?_⟩
        · simp [insertOneVR, hov]
        · exact coversVR_trans (coversVR_widen e o) (heq ▸ hcov)
      · exact ⟨r, by simp [insertOneVR, hov, hmem], hcov⟩
    · rcases List.mem_cons.mp hr with heq | hmem
      · subst heq
        exact ⟨r, by simp [insertOneVR, hov], hcov⟩
      · obtain ⟨r', hr', hcov'⟩ := ih ⟨r, hmem, hcov⟩
        exact ⟨r', by simp [insertOneVR, hov, hr'], hcov'⟩

theorem foldl_insert_cover (l : List VersionRange) (acc : List VersionRange)
    {s : VersionRange} (h : ∃ r ∈ acc, coversVR r s) :
    ∃ r ∈ l.foldl insertOneVR acc, coversVR r s := by
  induction l generalizing acc with
  | nil => simpa using h
  | cons x xs ih => exact ih (insertOneVR acc x) (insertOneVR_mono acc x h)

theorem foldl_insert_mem (l : List VersionRange) (acc : List VersionRange)
    {s : VersionRange} (h : s ∈ l) :
    ∃ r ∈ l.foldl insertOneVR acc, coversVR r s := by
  induction l generalizing acc with
  | nil => simp at h
  | cons x xs ih =>
    rcases List.mem_cons.mp h with heq | hmem
    · subst heq
      exact foldl_insert_cover xs (insertOneVR acc s) (insertOneVR_self acc s)
    · exact ih (insertOneVR acc x) hmem

theorem containsB_char (r : VersionRange) (v : Version) :
    VersionRange.containsB r v = true ↔
      v.majorVer = r.majorVer ∧ r.minMinor ≤ v.minorVer ∧ v.minorVer ≤ r.maxMinor := by
  simp only [VersionRange.containsB, VersionRange.minVer, VersionRange.maxVer,
    Version.leBool, Bool.and_eq_true, Bool.or_eq_true, decide_eq_true_eq]
  omega

/-- C3: `VersionRange(M, m, M2).contains(v)` holds exactly when the major
versions agree and the minor lies in the closed interval, even though the
implementation compares whole `Version` values lexicographically. -/
theorem contains_iff_major_minor (M m M2 : Nat) (v : Version) :
    VersionRange.containsB ⟨M, m, M2⟩ v = true ↔
      v.majorVer = M ∧ m ≤ v.minorVer ∧ v.minorVer ≤ M2 :=
  containsB_char ⟨M, m, M2⟩ v

/-- C4: `supportedBy` ignores `maxMinor`: it holds exactly when the majors
agree and `minMinor <= v.minorVer`; consequently every range admits a
version above its `maxMinor` that is `supportedBy` but not contained —
the asymmetry between `supportedBy` and `contains` is real. -/
theorem supportedBy_spec :
    (∀ (r : VersionRange) (v : Version),
        VersionRange.supportedBy r v = true ↔
          v.majorVer = r.majorVer ∧ r.minMinor ≤ v.minorVer) ∧
      (∀ r : VersionRange, ∃ v : Version,
        v.minorVer > r.maxMinor ∧ VersionRange.supportedBy r v = true ∧
          VersionRange.containsB r v = false) := by
  constructor
  · intro r v
    simp only [VersionRange.supportedBy, Bool.and_eq_true, decide_eq_true_eq]
    omega
  · intro r
    refine ⟨⟨r.majorVer, max r.minMinor (r.maxMinor + 1)⟩, ?_, ?_, ?_⟩
    · show max r.minMinor (r.maxMinor + 1) > r.maxMinor
      omega
    · show (decide (r.majorVer = r.majorVer) &&
        decide (r.minMinor ≤ max r.minMinor (r.maxMinor + 1))) = true
      simp only [Bool.and_eq_true, decide_eq_true_eq]
      exact ⟨by trivial, le_max_left _ _⟩
    · by_cases hc : VersionRange.containsB r ⟨r.majorVer, max r.minMinor (r.maxMinor + 1)⟩ = true
      · exfalso
        have h := (containsB_char r ⟨r.majorVer, max r.minMinor (r.maxMinor + 1)⟩).mp hc
        have h3 : max r.minMinor (r.maxMinor + 1) ≤ r.maxMinor := h.2.2
        omega
      · exact Bool.eq_false_iff.mpr hc

/-- C7: `overlaps` is symmetric, and for well-formed ranges
(`minMinor <= maxMinor`) it holds exactly when the majors agree and the
closed minor intervals have a common point. -/
theorem overlaps_spec :
    (∀ a b : VersionRange, VersionRange.overlaps a b = VersionRange.overlaps b a) ∧
      (∀ a b : VersionRange, a.minMinor ≤ a.maxMinor → b.minMinor ≤ b.maxMinor →
        (VersionRange.overlaps a b = true ↔
          a.majorVer = b.majorVer ∧
            ∃ x, a.minMinor ≤ x ∧ x ≤ a.maxMinor ∧ b.minMinor ≤ x ∧ x ≤ b.maxMinor)) := by
  constructor
  · intro a b
    rw [overlaps_eq_decide, overlaps_eq_decide, decide_eq_decide]
    constructor <;> (rintro ⟨h1, h2, h3⟩; exact ⟨h1.symm, h3, h2⟩)
  · intro a b ha hb
    rw [overlaps_eq_decide, decide_eq_true_eq]
    constructor
    · rintro ⟨hmaj, h1, h2⟩
      exact ⟨hmaj, max a.minMinor b.minMinor, le_max_left _ _, by omega, le_max_right _ _,
        by omega⟩
    · rintro ⟨hmaj, x, hx1, hx2, hx3, hx4⟩
      exact ⟨hmaj, by omega, by omega⟩

/-- C2 (counterexample): starting from the non-overlapping ranges
`[1.0-1, 1.3-4]` and inserting `[1.1-3]` (itself non-overlapping), the
result `[1.0-3, 1.3-4]` contains two overlapping ranges with the same
major version — `insertVersionRanges` does not preserve the invariant. -/
theorem insertVersionRanges_breaks_invariant :
    noOverlapB [⟨1, 0, 1⟩, ⟨1, 3, 4⟩] = true ∧
      noOverlapB [⟨1, 1, 3⟩] = true ∧
      noOverlapB (insertVersionRanges [⟨1, 0, 1⟩, ⟨1, 3, 4⟩] [⟨1, 1, 3⟩]) = false := by
  decide

/-- C2 (amended): after `insertVersionRanges(other)` every version range of
`other` is covered by some resulting range (an overlapping existing range
is widened to cover both, otherwise the range is appended); the
no-overlap invariant, however, is not guaranteed to be preserved. -/
theorem insertVersionRanges_covers (t other : List VersionRange)
    (_hwf : noOverlapB t = true) :
    ∀ s ∈ other, ∃ r ∈ insertVersionRanges t other, coversVR r s := by
  intro s hs
  exact foldl_insert_mem other t hs

/-- Witness for `insertVersionRanges_covers` at a concrete input. -/
theorem insertVersionRanges_covers_witness :
    noOverlapB [⟨1, 0, 1⟩] = true ∧
      ∃ r ∈ insertVersionRanges [⟨1, 0, 1⟩] [⟨2, 0, 0⟩], coversVR r ⟨2, 0, 0⟩ :=
  ⟨by decide,
    insertVersionRanges_covers [⟨1, 0, 1⟩] [⟨2, 0, 0⟩] (by decide) ⟨2, 0, 0⟩ (by decide)⟩

theorem visitInstances_fst (P : List FqInstance) (l : List MatrixInstance) :
    (visitInstances P l).1 = !l.isEmpty := by
  cases l with
  | nil => rfl
  | cons m ms =>
    by_cases h : P.any (fun p => m.isSatisfiedBy p) = true <;> simp [visitInstances, h]

theorem visitInstances_snd (P : List FqInstance) (l : List MatrixInstance) :
    (visitInstances P l).2 = l.any (fun m => !(P.any (fun p => m.isSatisfiedBy p))) := by
  induction l with
  | nil => rfl
  | cons m ms ih =>
    by_cases h : P.any (fun p => m.isSatisfiedBy p) = true <;> simp [visitInstances, h, ih]

/-- C10: `MatrixHal::operator==` disregards the optional flag — equal
`format`, `name`, `versionRanges` and `interfaces` give equality whatever
the optional flags are, and `setOptional` never changes the result of
`operator==` on either side. -/
theorem matrixHal_eq_ignores_optional :
    (∀ a b : MatrixHal, a.format = b.format → a.name = b.name →
      a.versionRanges = b.versionRanges → a.interfaces = b.interfaces →
      MatrixHal.eqBool a b = true) ∧
      (∀ (a b : MatrixHal) (o : Bool),
        MatrixHal.eqBool (a.setOptional o) b = MatrixHal.eqBool a b ∧
          MatrixHal.eqBool b (a.setOptional o) = MatrixHal.eqBool b a) := by
  constructor
  · intro a b h1 h2 h3 h4
    simp [MatrixHal.eqBool, h1, h2, h3, h4]
  · intro a b o
    constructor <;> simp [MatrixHal.eqBool, MatrixHal.setOptional]

/-- Witness for `matrixHal_eq_ignores_optional`: two concrete `MatrixHal`s
differing only in the optional flag compare equal. -/
theorem matrixHal_eq_ignores_optional_witness :
    MatrixHal.eqBool
      ⟨HalFormat.HIDL, "android.hardware.foo", [⟨1, 0, 1⟩], false, none,
        [("IFoo", ⟨"IFoo", ["default"]⟩)]⟩
      ⟨HalFormat.HIDL, "android.hardware.foo", [⟨1, 0, 1⟩], true, none,
        [("IFoo", ⟨"IFoo", ["default"]⟩)]⟩ = true :=
  matrixHal_eq_ignores_optional.1 _ _ rfl rfl rfl rfl

theorem findInterface_mem {a : MatrixHal} {n : String} {hi : HalInterface}
    (h : a.findInterface n = some hi) : ∃ q ∈ a.interfaces, q.2 = hi := by
  unfold MatrixHal.findInterface at h
  cases hfind : a.interfaces.find? (fun p => p.1 = n) with
  | none => rw [hfind] at h; simp at h
  | some q =>
    rw [hfind] at h
    simp at h
    exact ⟨q, List.mem_of_find?_eq_some hfind, h⟩

theorem includesSorted_iff (a b : List String)
    (ha : List.Pairwise (· < ·) a) (hb : List.Pairwise (· < ·) b) :
    includesSorted a b = true ↔ ∀ x ∈ b, x ∈ a := by
  induction a generalizing b with
  | nil =>
    cases b with
    | nil =>
      constructor
      · intro _ z hz
        exact absurd hz (List.not_mem_nil z)
      · intro _
        rfl
    | cons y ys =>
      constructor
      · intro h
        exact absurd h (by simp [includesSorted])
      · intro h
        exact absurd (h y (List.mem_cons_self y ys)) (List.not_mem_nil y)
  | cons x xs ih =>
    cases b with
    | nil =>
      constructor
      · intro _ z hz
        exact absurd hz (List.not_mem_nil z)
      · intro _
        rfl
    | cons y ys =>
      have hx : ∀ z ∈ xs, x < z := (List.pairwise_cons.mp ha).1
      have hxs := (List.pairwise_cons.mp ha).2
      have hy : ∀ z ∈ ys, y < z := (List.pairwise_cons.mp hb).1
      have hys := (List.pairwise_cons.mp hb).2
      rcases lt_trichotomy y x with hyx | heq | hxy
      · rw [show includesSorted (x :: xs) (y :: ys) = false from by
          simp [includesSorted, hyx]]
        constructor
        · intro h
          cases h
        · intro hsub
          exfalso
          rcases List.mem_cons.mp (hsub y (List.mem_cons_self y ys)) with h | h
          · exact lt_irrefl x (h ▸ hyx)
          · exact lt_irrefl y (lt_trans hyx (hx y h))
      · subst heq
        rw [show includesSorted (y :: xs) (y :: ys) = includesSorted xs ys from by
          simp [includesSorted]]
        rw [ih ys hxs hys]
        constructor
        · intro hsub z hz
          rcases List.mem_cons.mp hz with h | h
          · rw [h]
            exact List.mem_cons_self y xs
          · exact List.mem_cons_of_mem y (hsub z h)
        · intro hsub z hz
          rcases List.mem_cons.mp (hsub z (List.mem_cons_of_mem y hz)) with h | h
          · exact absurd (h ▸ hy z hz) (lt_irrefl y)
          · exact h
      · rw [show includesSorted (x :: xs) (y :: ys) = includesSorted xs (y :: ys) from by
          simp [includesSorted, hxy, lt_asymm hxy]]
        rw [ih (y :: ys) hxs hb]
        constructor
        · intro hsub z hz
          exact List.mem_cons_of_mem x (hsub z hz)
        · intro hsub z hz
          rcases List.mem_cons.mp (hsub z hz) with h | h
          · exfalso
            have hyz : y ≤ z := by
              rcases List.mem_cons.mp hz with h2 | h2
              · exact le_of_eq h2.symm
              · exact le_of_lt (hy z h2)
            exact lt_irrefl x (lt_of_lt_of_le hxy (h ▸ hyz))
          · exact h

/-- C6: for `MatrixHal`s whose instance-name lists are the strictly
sorted sequences of `std::set`s, `containsInstances(other)` holds exactly
when every interface name `other` declares is also declared by `this`
with an instance-name set that is a superset of `other`'s; in particular
it is vacuously true when `other` declares no interfaces. -/
theorem containsInstances_iff (a b : MatrixHal)
    (hA : ∀ p ∈ a.interfaces, List.Pairwise (· < ·) p.2.instances)
    (hB : ∀ p ∈ b.interfaces, List.Pairwise (· < ·) p.2.instances) :
    MatrixHal.containsInstances a b = true ↔
      ∀ p ∈ b.interfaces, ∃ hi, a.findInterface p.1 = some hi ∧
        ∀ x ∈ p.2.instances, x ∈ hi.instances := by
  unfold MatrixHal.containsInstances
  rw [List.all_eq_true]
  constructor
  · intro hall p hp
    have h := hall p hp
    cases hf : a.findInterface p.1 with
    | none =>
      rw [hf] at h
      cases h
    | some hi =>
      rw [hf] at h
      obtain ⟨q, hq, hq2⟩ := findInterface_mem hf
      refine ⟨hi, rfl, ?_⟩
      exact (includesSorted_iff hi.instances p.2.instances (hq2 ▸ hA q hq) (hB p hp)).mp h
  · intro hall p hp
    obtain ⟨hi, hf, hsub⟩ := hall p hp
    rw [hf]
    obtain ⟨q, hq, hq2⟩ := findInterface_mem hf
    exact (includesSorted_iff hi.instances p.2.instances (hq2 ▸ hA q hq) (hB p hp)).mpr hsub

/-- Witness for `containsInstances_iff` at concrete inputs: a requirement
declaring `IFoo/default` is contained in one declaring
`IFoo/custom, IFoo/default`. -/
theorem containsInstances_iff_witness :
    (MatrixHal.containsInstances
        ⟨HalFormat.HIDL, "foo", [⟨1, 0, 0⟩], false, none,
          [("IFoo", ⟨"IFoo", ["custom", "default"]⟩)]⟩
        ⟨HalFormat.HIDL, "foo", [⟨1, 0, 0⟩], false, none,
          [("IFoo", ⟨"IFoo", ["default"]⟩)]⟩ = true ↔
      ∀ p ∈ [(("IFoo" : String), (⟨"IFoo", ["default"]⟩ : HalInterface))],
        ∃ hi, MatrixHal.findInterface
            ⟨HalFormat.HIDL, "foo", [⟨1, 0, 0⟩], false, none,
              [("IFoo", ⟨"IFoo", ["custom", "default"]⟩)]⟩ p.1 = some hi ∧
          ∀ x ∈ p.2.instances, x ∈ hi.instances) :=
  containsInstances_iff _ _
    (by
      intro p hp
      simp at hp
      rw [hp]
      simp
      decide)
    (by
      intro p hp
      simp at hp
      rw [hp]
      simp)

theorem isCompatibleRange_iff (a : MatrixHal) (vr : VersionRange)
    (P : List FqInstance) (V : List Version) :
    MatrixHal.isCompatibleRange a vr P V = true ↔
      ((a.expand vr ≠ [] ∧ ∀ m ∈ a.expand vr, ∃ p ∈ P, m.isSatisfiedBy p = true) ∨
        (a.expand vr = [] ∧ ∃ v ∈ V, VersionRange.supportedBy vr v = true)) := by
  unfold MatrixHal.isCompatibleRange
  rw [visitInstances_fst, visitInstances_snd]
  cases hl : a.expand vr with
  | nil =>
    simp [List.any_eq_true]
  | cons m ms =>
    simp only [List.isEmpty_cons, Bool.not_false, if_true, ne_eq, reduceCtorEq,
      not_false_eq_true, true_and, false_and, or_false]
    rw [Bool.not_eq_true']
    rw [List.any_eq_false]
    constructor
    · intro h z hz
      have h2 := h z hz
      simp only [Bool.not_eq_true, Bool.not_eq_false', List.any_eq_true] at h2
      exact h2
    · intro h z hz
      simp only [Bool.not_eq_true, Bool.not_eq_false', List.any_eq_true]
      exact h z hz

/-- C1: `MatrixHal::isCompatible(providedInstances, providedVersions)`
holds exactly when some version range either expands to a nonempty list
of interface/instance obligations all of which are satisfied by some
provided instance (AND across obligations, OR within one), or expands to
no obligation and some provided version is `supportedBy` it; ranges are
joined by OR. -/
theorem isCompatible_iff (a : MatrixHal) (P : List FqInstance) (V : List Version) :
    MatrixHal.isCompatible a P V = true ↔
      ∃ vr ∈ a.versionRanges,
        ((a.expand vr ≠ [] ∧ ∀ m ∈ a.expand vr, ∃ p ∈ P, m.isSatisfiedBy p = true) ∨
          (a.expand vr = [] ∧ ∃ v ∈ V, VersionRange.supportedBy vr v = true)) := by
  unfold MatrixHal.isCompatible
  rw [List.any_eq_true]
  constructor
  · rintro ⟨vr, hvr, hc⟩
    exact ⟨vr, hvr, (isCompatibleRange_iff a vr P V).mp hc⟩
  · rintro ⟨vr, hvr, hc⟩
    exact ⟨vr, hvr, (isCompatibleRange_iff a vr P V).mpr hc⟩

/-- Witness for `overlaps_spec` at the concrete ranges 1.2-4 and 1.4-5
from the `VersionRange.h` comment. -/
theorem overlaps_spec_witness :
    ((2 : Nat) ≤ 4 ∧ (4 : Nat) ≤ 5) ∧
      (VersionRange.overlaps ⟨1, 2, 4⟩ ⟨1, 4, 5⟩ = true ↔
        (1 : Nat) = 1 ∧ ∃ x, 2 ≤ x ∧ x ≤ 4 ∧ 4 ≤ x ∧ x ≤ 5) :=
  ⟨⟨by decide, by decide⟩, overlaps_spec.2 ⟨1, 2, 4⟩ ⟨1, 4, 5⟩ (by decide) (by decide)⟩

theorem ite_chain_char (la lb : Prop) [Decidable la] [Decidable lb] (rest : Bool) :
    ((if la then (true : Bool) else if lb then false else rest) = true) ↔
      (la ∨ (¬la ∧ ¬lb ∧ rest = true)) := by
  by_cases h1 : la <;> by_cases h2 : lb <;> simp [h1, h2]

theorem lex_lt_char {α β : Type} [LinearOrder α] [LT β] (x y : α) (u v : β) :
    toLex (x, u) < toLex (y, v) ↔ (x < y ∨ (¬(x < y) ∧ ¬(y < x) ∧ u < v)) := by
  rw [Prod.Lex.lt_iff]
  constructor
  · rintro (h | h)
    · exact Or.inl h
    · obtain ⟨heq, hv⟩ := h
      subst heq
      exact Or.inr ⟨lt_irrefl x, lt_irrefl x, hv⟩
  · rintro (h | ⟨h1, h2, hv⟩)
    · exact Or.inl h
    · exact Or.inr ⟨le_antisymm (le_of_not_lt h2) (le_of_not_lt h1), hv⟩

theorem miLt_iff (a b : ManifestInstance) :
    ManifestInstance.ltBool a b = true ↔ miKey a < miKey b := by
  simp only [ManifestInstance.ltBool, FqInstance.ltBool, TransportArch.ltBool,
    HalFormat.ltBool, optStrLtBool, boolLtBool, miKey, decide_eq_true_eq]
  rw [ite_chain_char, ite_chain_char, ite_chain_char, ite_chain_char, ite_chain_char,
    lex_lt_char, lex_lt_char, lex_lt_char, lex_lt_char, lex_lt_char, decide_eq_true_eq]

theorem transport_toNat_inj : ∀ a b : Transport, a.toNat = b.toNat → a = b := by
  intro a b h
  cases a <;> cases b <;> first | rfl | simp [Transport.toNat] at h

theorem arch_toNat_inj : ∀ a b : Arch, a.toNat = b.toNat → a = b := by
  intro a b h
  cases a <;> cases b <;> first | rfl | simp [Arch.toNat] at h

theorem halFormat_toNat_inj : ∀ a b : HalFormat, a.toNat = b.toNat → a = b := by
  intro a b h
  cases a <;> cases b <;> first | rfl | simp [HalFormat.toNat] at h

theorem optKeyS_inj : ∀ a b : Option String, optKeyS a = optKeyS b → a = b := by
  intro a b h
  cases a <;> cases b <;> simp [optKeyS] at h ⊢ <;> exact h

theorem optKeyN_inj : ∀ a b : Option Nat, optKeyN a = optKeyN b → a = b := by
  intro a b h
  cases a <;> cases b <;> simp [optKeyN] at h ⊢ <;> exact h

theorem fqKey_inj : ∀ a b : FqInstance, fqKey a = fqKey b → a = b := by
  intro a b h
  obtain ⟨pa, ⟨vma, vmi⟩, ia, na⟩ := a
  obtain ⟨pb, ⟨vmb, vmb2⟩, ib, nb⟩ := b
  simp [fqKey] at h
  obtain ⟨h1, ⟨h2, h3⟩, h4, h5⟩ := h
  simp [h1, h2, h3, h4, h5]

theorem taKey_inj : ∀ a b : TransportArch, taKey a = taKey b → a = b := by
  intro a b h
  obtain ⟨ta, aa, ipa, pta⟩ := a
  obtain ⟨tb, ab, ipb, ptb⟩ := b
  simp [taKey] at h
  obtain ⟨h1, h2, h3, h4⟩ := h
  have e1 := transport_toNat_inj _ _ h1
  have e2 := arch_toNat_inj _ _ h2
  have e3 := optKeyS_inj _ _ h3
  have e4 := optKeyN_inj _ _ h4
  simp [e1, e2, e3, e4]

theorem miKey_inj : ∀ a b : ManifestInstance, miKey a = miKey b → a = b := by
  intro a b h
  obtain ⟨fa, ta, ha, ua, aa, sa⟩ := a
  obtain ⟨fb, tb, hb, ub, ab, sb⟩ := b
  simp only [miKey, toLex_inj, Prod.mk.injEq] at h
  obtain ⟨h1, h2, h3, h4, h5, h6⟩ := h
  have e1 := fqKey_inj _ _ h1
  have e2 := taKey_inj _ _ h2
  have e3 := halFormat_toNat_inj _ _ h3
  have e4 := optKeyS_inj _ _ h4
  have e6 := optKeyS_inj _ _ h6
  simp [e1, e2, e3, e4, h5, e6]

theorem miEq_iff (a b : ManifestInstance) :
    ManifestInstance.eqBool a b = true ↔ a = b := by
  obtain ⟨fa, ta, ha, ua, aa, sa⟩ := a
  obtain ⟨fb, tb, hb, ub, ab, sb⟩ := b
  simp only [ManifestInstance.eqBool, Bool.and_eq_true, decide_eq_true_eq,
    ManifestInstance.mk.injEq]
  constructor
  · rintro ⟨⟨⟨⟨⟨h1, h2⟩, h3⟩, h4⟩, h5⟩, h6⟩
    exact ⟨h1, h2, h3, h4, h6, h5⟩
  · rintro ⟨h1, h2, h3, h4, h5, h6⟩
    exact ⟨⟨⟨⟨⟨h1, h2⟩, h3⟩, h4⟩, h6⟩, h5⟩

/-- C9 (amended): `ManifestInstance::operator==` holds exactly when all
six compared members (`mFqInstance`, `mTransportArch`, `mHalFormat`,
`mUpdatableViaApex`, `mUpdatableViaSystem`, `mAccessor`) agree — i.e. the
whole values agree — and `operator<` is a strict total order given by the
lexicographic chain over those six members (with `mFqInstance` itself
ordered lexicographically over its four coordinate fields), not over the
four coordinate fields alone. -/
theorem manifestInstance_order_spec :
    ∀ a b c : ManifestInstance,
      (ManifestInstance.eqBool a b = true ↔ a = b) ∧
        ManifestInstance.ltBool a a = false ∧
        (ManifestInstance.ltBool a b = true → ManifestInstance.ltBool b c = true →
          ManifestInstance.ltBool a c = true) ∧
        (a ≠ b →
          ManifestInstance.ltBool a b = true ∨ ManifestInstance.ltBool b a = true) := by
  intro a b c
  refine ⟨miEq_iff a b, ?_, ?_, ?_⟩
  · rw [Bool.eq_false_iff]
    intro h
    exact lt_irrefl _ ((miLt_iff a a).mp h)
  · intro h1 h2
    exact (miLt_iff a c).mpr (lt_trans ((miLt_iff a b).mp h1) ((miLt_iff b c).mp h2))
  · intro hne
    have hk : miKey a ≠ miKey b := fun h => hne (miKey_inj a b h)
    rcases lt_or_gt_of_ne hk with h | h
    · exact Or.inl ((miLt_iff a b).mpr h)
    · exact Or.inr ((miLt_iff b a).mpr h)

/-- C9 (counterexample): two `ManifestInstance`s with identical
`(package, version, interface, instance)` coordinates — equal
`mFqInstance` — but different formats compare unequal under
`operator==`, so equality is not determined by the four coordinate
fields alone. -/
theorem manifestInstance_eq_counterexample :
    miA.mFqInstance = miB.mFqInstance ∧ ManifestInstance.eqBool miA miB = false :=
  ⟨rfl, rfl⟩

/-- Witness for `manifestInstance_order_spec`: transitivity and
connexity instantiated at `miA`, `miB`, `miC`. -/
theorem manifestInstance_order_spec_witness :
    ManifestInstance.ltBool miA miC = true ∧
      (ManifestInstance.eqBool miA miA = true ↔ miA = miA) := by
  have hAB : ManifestInstance.ltBool miA miB = true := by
    refine (miLt_iff miA miB).mpr ?_
    show toLex _ < toLex _
    rw [Prod.Lex.lt_iff]
    refine Or.inr ⟨rfl, ?_⟩
    rw [Prod.Lex.lt_iff]
    refine Or.inr ⟨rfl, ?_⟩
    rw [Prod.Lex.lt_iff]
    exact Or.inl (by decide)
  have hBC : ManifestInstance.ltBool miB miC = true := by
    refine (miLt_iff miB miC).mpr ?_
    show toLex _ < toLex _
    rw [Prod.Lex.lt_iff]
    refine Or.inr ⟨rfl, ?_⟩
    rw [Prod.Lex.lt_iff]
    refine Or.inr ⟨rfl, ?_⟩
    rw [Prod.Lex.lt_iff]
    exact Or.inl (by decide)
  exact ⟨(manifestInstance_order_spec miA miB miC).2.2.1 hAB hBC,
    (manifestInstance_order_spec miA miA miA).1⟩

/-- C8 (counterexample): "019" is a decimal string denoting 19, with
`-(2^64) < 19 < 2^64`, yet `parseKernelConfigInt` fails on it: base-0
`strtoull` reads the leading `0` as an octal marker, stops at the `9`,
and the trailing character makes the helper return false. -/
theorem parseKernelConfigInt_counterexample :
    decimalDenotes "019" 19 ∧ (-(2 ^ 64) : Int) < 19 ∧ (19 : Int) < 2 ^ 64 ∧
      parseKernelConfigInt "019" = none := by
  refine ⟨⟨by decide, by decide, by decide⟩, by decide, by decide, by decide⟩

theorem digitValB_ge (b : Nat) (c : Char) (h : (digitValB b c).isSome = true) :
    48 ≤ c.toNat := by
  unfold digitValB at h
  split at h
  · omega
  · split at h
    · split at h <;> omega
    · split at h
      · split at h <;> omega
      · simp at h

theorem digitValB_ten (c : Char) (h : (digitValB 10 c).isSome = true) :
    48 ≤ c.toNat ∧ c.toNat ≤ 57 := by
  unfold digitValB at h
  split at h
  · omega
  · split at h
    · split at h
      · omega
      · simp at h
    · split at h
      · split at h
        · omega
        · simp at h
      · simp at h

theorem digitValB_eight (c : Char) (h : (digitValB 8 c).isSome = true) :
    48 ≤ c.toNat ∧ c.toNat ≤ 55 := by
  unfold digitValB at h
  split at h
  · split at h
    · omega
    · simp at h
  · split at h
    · split at h
      · omega
      · simp at h
    · split at h
      · split at h
        · omega
        · simp at h
      · simp at h

theorem isSpaceC_le (c : Char) (h : isSpaceC c = true) : c.toNat ≤ 32 := by
  unfold isSpaceC at h
  simp only [Bool.or_eq_true, decide_eq_true_eq] at h
  omega

theorem not_space_of_ge (c : Char) (h : 43 ≤ c.toNat) : isSpaceC c = false := by
  unfold isSpaceC
  simp only [Bool.or_eq_false_iff, decide_eq_false_iff_not]
  omega

theorem digitsFold_cons (b acc : Nat) (c : Char) (ds : List Char) :
    digitsFold b acc (c :: ds) = digitsFold b (acc * b + (digitValB b c).getD 0) ds :=
  rfl

theorem dropSpaces_split (cs : List Char) :
    ∃ w, cs = w ++ dropSpaces cs ∧ (∀ c ∈ w, isSpaceC c = true) ∧
      (∀ c r2, dropSpaces cs = c :: r2 → isSpaceC c = false) := by
  induction cs with
  | nil => exact ⟨[], rfl, by simp, by simp [dropSpaces]⟩
  | cons c cs ih =>
    by_cases hc : isSpaceC c = true
    · obtain ⟨w, hsplit, hw, hhead⟩ := ih
      refine ⟨c :: w, ?_, ?_, ?_⟩
      · simp [dropSpaces, hc]
        exact hsplit
      · intro x hx
        rcases List.mem_cons.mp hx with h | h
        · exact h ▸ hc
        · exact hw x h
      · intro x r2 hx
        rw [show dropSpaces (c :: cs) = dropSpaces cs from by simp [dropSpaces, hc]] at hx
        exact hhead x r2 hx
    · refine ⟨[], ?_, by simp, ?_⟩
      · simp [dropSpaces, hc]
      · intro x r2 hx
        rw [show dropSpaces (c :: cs) = c :: cs from by simp [dropSpaces, hc]] at hx
        cases hx
        exact Bool.eq_false_iff.mpr hc

theorem dropSpaces_of_append (w tail : List Char) (hw : ∀ c ∈ w, isSpaceC c = true)
    (ht : ∀ c r2, tail = c :: r2 → isSpaceC c = false) :
    dropSpaces (w ++ tail) = tail := by
  induction w with
  | nil =>
    cases htail : tail with
    | nil => simp [dropSpaces]
    | cons c r2 =>
      have := ht c r2 htail
      simp [dropSpaces, this]
  | cons c w ih =>
    have hc := hw c (by simp)
    simp only [List.cons_append, dropSpaces, hc, if_true]
    exact ih (fun x hx => hw x (by simp [hx]))

theorem takeDigits_split (b : Nat) (cs : List Char) (acc : Nat) :
    ∃ ds, cs = ds ++ (takeDigits b cs acc).2.2 ∧
      (∀ c ∈ ds, (digitValB b c).isSome = true) ∧
      (takeDigits b cs acc).2.1 = decide (ds ≠ []) ∧
      (takeDigits b cs acc).1 = digitsFold b acc ds ∧
      (∀ c r2, (takeDigits b cs acc).2.2 = c :: r2 → digitValB b c = none) := by
  induction cs generalizing acc with
  | nil => exact ⟨[], rfl, by simp, by simp [takeDigits], by simp [takeDigits, digitsFold], by
      simp [takeDigits]⟩
  | cons c cs ih =>
    cases hd : digitValB b c with
    | none =>
      refine ⟨[], by simp [takeDigits, hd], by simp, ?_, ?_, ?_⟩
      · simp [takeDigits, hd]
      · simp [takeDigits, hd, digitsFold]
      · intro x r2 hx
        rw [show (takeDigits b (c :: cs) acc).2.2 = c :: cs from by simp [takeDigits, hd]] at hx
        cases hx
        exact hd
    | some d =>
      obtain ⟨ds, hsplit, hall, hflag, hval, hhead⟩ := ih (acc * b + d)
      have hred : takeDigits b (c :: cs) acc =
          ((takeDigits b cs (acc * b + d)).1, true, (takeDigits b cs (acc * b + d)).2.2) := by
        simp [takeDigits, hd]
      refine ⟨c :: ds, ?_, ?_, ?_, ?_, ?_⟩
      · rw [hred]
        simpa using hsplit
      · intro x hx
        rcases List.mem_cons.mp hx with h | h
        · rw [h, hd]
          rfl
        · exact hall x h
      · rw [hred]
        simp
      · rw [hred]
        rw [digitsFold_cons]
        simpa [hd] using hval
      · intro x r2 hx
        rw [hred] at hx
        exact hhead x r2 hx

theorem takeDigits_of_append (b : Nat) (ds rest : List Char) (acc : Nat)
    (hds : ∀ c ∈ ds, (digitValB b c).isSome = true)
    (hrest : ∀ c r2, rest = c :: r2 → digitValB b c = none) :
    takeDigits b (ds ++ rest) acc = (digitsFold b acc ds, decide (ds ≠ []), rest) := by
  induction ds generalizing acc with
  | nil =>
    cases hr : rest with
    | nil => simp [takeDigits, digitsFold]
    | cons c r2 =>
      have := hrest c r2 hr
      simp [takeDigits, this, digitsFold]
  | cons c ds ih =>
    have hc := hds c (by simp)
    obtain ⟨d, hd⟩ := Option.isSome_iff_exists.mp hc
    have hrec := ih (acc * b + d) (fun x hx => hds x (by simp [hx]))
    simp only [List.cons_append, takeDigits, hd, digitsFold_cons]
    simp [hrec]

theorem strtoullBody_sound (neg : Bool) (cs2 : List Char) (v : Nat) (ng : Bool)
    (h : strtoullBody neg cs2 = some (v, ng, [])) :
    ng = neg ∧ (hexNumeral cs2 v ∨ octNumeral cs2 v ∨ decNumeral cs2 v) := by
  cases cs2 with
  | nil => simp [strtoullBody] at h
  | cons c cs3 =>
    cases cs3 with
    | nil =>
      by_cases hc : c = '0'
      · subst hc
        rw [show strtoullBody neg ['0'] = some (0, neg, []) from by simp [strtoullBody]] at h
        simp only [Option.some.injEq, Prod.mk.injEq] at h
        refine ⟨h.2.1.symm, Or.inr (Or.inl ⟨[], rfl, by simp, ?_⟩)⟩
        rw [← h.1]
        rfl
      · obtain ⟨ds, hsplit, hall, hflag, hval, hhead⟩ := takeDigits_split 10 [c] 0
        rcases ht : takeDigits 10 [c] 0 with ⟨tv, tb, tr⟩
        simp only [ht] at hsplit hflag hval hhead
        cases tb with
        | false =>
          rw [show strtoullBody neg [c] = none from by simp [strtoullBody, hc, ht]] at h
          cases h
        | true =>
          rw [show strtoullBody neg [c] = some (tv, neg, tr) from by
            simp [strtoullBody, hc, ht]] at h
          simp only [Option.some.injEq, Prod.mk.injEq] at h
          obtain ⟨h1, h2, h3⟩ := h
          subst h3
          rw [List.append_nil] at hsplit
          subst hsplit
          exact ⟨h2.symm, Or.inr (Or.inr ⟨by simp, hall, by
            simpa using fun he => hc he, by rw [← h1, hval]; rfl⟩)⟩
    | cons c2 rest =>
      by_cases hc : c = '0'
      · subst hc
        by_cases hx : c2 = 'x' ∨ c2 = 'X'
        · rcases hx with hx | hx <;> subst hx
          · cases rest with
            | nil =>
              rw [show strtoullBody neg ['0', 'x'] = some (0, neg, ['x']) from by
                simp [strtoullBody]] at h
              simp at h
            | cons d rest2 =>
              by_cases hd : (digitValB 16 d).isSome = true
              · obtain ⟨ds, hsplit, hall, hflag, hval, hhead⟩ :=
                  takeDigits_split 16 (d :: rest2) 0
                rcases ht : takeDigits 16 (d :: rest2) 0 with ⟨tv, tb, tr⟩
                simp only [ht] at hsplit hflag hval hhead
                rw [show strtoullBody neg ('0' :: 'x' :: d :: rest2) = some (tv, neg, tr) from by
                  simp [strtoullBody, hd, ht]] at h
                simp only [Option.some.injEq, Prod.mk.injEq] at h
                obtain ⟨h1, h2, h3⟩ := h
                subst h3
                rw [List.append_nil] at hsplit
                subst hsplit
                exact ⟨h2.symm, Or.inl ⟨'x', d :: rest2, Or.inl rfl, rfl, by simp, hall, by
                  rw [← h1, hval]; rfl⟩⟩
              · rw [show strtoullBody neg ('0' :: 'x' :: d :: rest2) =
                    some (0, neg, 'x' :: d :: rest2) from by simp [strtoullBody, hd]] at h
                simp at h
          · cases rest with
            | nil =>
              rw [show strtoullBody neg ['0', 'X'] = some (0, neg, ['X']) from by
                simp [strtoullBody]] at h
              simp at h
            | cons d rest2 =>
              by_cases hd : (digitValB 16 d).isSome = true
              · obtain ⟨ds, hsplit, hall, hflag, hval, hhead⟩ :=
                  takeDigits_split 16 (d :: rest2) 0
                rcases ht : takeDigits 16 (d :: rest2) 0 with ⟨tv, tb, tr⟩
                simp only [ht] at hsplit hflag hval hhead
                rw [show strtoullBody neg ('0' :: 'X' :: d :: rest2) = some (tv, neg, tr) from by
                  simp [strtoullBody, hd, ht]] at h
                simp only [Option.some.injEq, Prod.mk.injEq] at h
                obtain ⟨h1, h2, h3⟩ := h
                subst h3
                rw [List.append_nil] at hsplit
                subst hsplit
                exact ⟨h2.symm, Or.inl ⟨'X', d :: rest2, Or.inr rfl, rfl, by simp, hall, by
                  rw [← h1, hval]; rfl⟩⟩
              · rw [show strtoullBody neg ('0' :: 'X' :: d :: rest2) =
                    some (0, neg, 'X' :: d :: rest2) from by simp [strtoullBody, hd]] at h
                simp at h
        · push_neg at hx
          obtain ⟨hx1, hx2⟩ := hx
          obtain ⟨ds, hsplit, hall, hflag, hval, hhead⟩ := takeDigits_split 8 (c2 :: rest) 0
          rcases ht : takeDigits 8 (c2 :: rest) 0 with ⟨tv, tb, tr⟩
          simp only [ht] at hsplit hflag hval hhead
          rw [show strtoullBody neg ('0' :: c2 :: rest) = some (tv, neg, tr) from by
            simp [strtoullBody, hx1, hx2, ht]] at h
          simp only [Option.some.injEq, Prod.mk.injEq] at h
          obtain ⟨h1, h2, h3⟩ := h
          subst h3
          rw [List.append_nil] at hsplit
          subst hsplit
          exact ⟨h2.symm, Or.inr (Or.inl ⟨c2 :: rest, rfl, hall, by rw [← h1, hval]; rfl⟩)⟩
      · obtain ⟨ds, hsplit, hall, hflag, hval, hhead⟩ := takeDigits_split 10 (c :: c2 :: rest) 0
        rcases ht : takeDigits 10 (c :: c2 :: rest) 0 with ⟨tv, tb, tr⟩
        simp only [ht] at hsplit hflag hval hhead
        cases tb with
        | false =>
          rw [show strtoullBody neg (c :: c2 :: rest) = none from by
            simp [strtoullBody, hc, ht]] at h
          cases h
        | true =>
          rw [show strtoullBody neg (c :: c2 :: rest) = some (tv, neg, tr) from by
            simp [strtoullBody, hc, ht]] at h
          simp only [Option.some.injEq, Prod.mk.injEq] at h
          obtain ⟨h1, h2, h3⟩ := h
          subst h3
          rw [List.append_nil] at hsplit
          subst hsplit
          exact ⟨h2.symm, Or.inr (Or.inr ⟨by simp, hall, by
            simpa using fun he => hc he, by rw [← h1, hval]; rfl⟩)⟩

theorem strtoullBody_complete (neg : Bool) (num : List Char) (v : Nat)
    (h : hexNumeral num v ∨ octNumeral num v ∨ decNumeral num v) :
    strtoullBody neg num = some (v, neg, []) := by
  rcases h with hhex | hoct | hdec
  · obtain ⟨x, ds, hx, hnum, hne, hall, hv⟩ := hhex
    subst hnum
    cases ds with
    | nil => exact absurd rfl hne
    | cons d ds2 =>
      have hd : (digitValB 16 d).isSome = true := hall d (by simp)
      have htd : takeDigits 16 ((d :: ds2) ++ []) 0 =
          (digitsFold 16 0 (d :: ds2), decide ((d :: ds2) ≠ []), []) :=
        takeDigits_of_append 16 (d :: ds2) [] 0 hall (by simp)
      rw [List.append_nil] at htd
      rcases hx with hx | hx <;> subst hx
      · rw [show strtoullBody neg ('0' :: 'x' :: d :: ds2) =
            some ((takeDigits 16 (d :: ds2) 0).1, neg, (takeDigits 16 (d :: ds2) 0).2.2) from by
          simp [strtoullBody, hd, htd]]
        rw [htd]
        simp [hv, natOfDigitsB]
      · rw [show strtoullBody neg ('0' :: 'X' :: d :: ds2) =
            some ((takeDigits 16 (d :: ds2) 0).1, neg, (takeDigits 16 (d :: ds2) 0).2.2) from by
          simp [strtoullBody, hd, htd]]
        rw [htd]
        simp [hv, natOfDigitsB]
  · obtain ⟨ds, hnum, hall, hv⟩ := hoct
    subst hnum
    cases ds with
    | nil =>
      rw [show strtoullBody neg ['0'] = some (0, neg, []) from by simp [strtoullBody]]
      rw [hv]
      rfl
    | cons c2 ds2 =>
      have hc2 : (digitValB 8 c2).isSome = true := hall c2 (by simp)
      have hb := digitValB_eight c2 hc2
      have hx1 : c2 ≠ 'x' := by
        intro he
        subst he
        simp at hb
      have hx2 : c2 ≠ 'X' := by
        intro he
        subst he
        simp at hb
      have htd : takeDigits 8 ((c2 :: ds2) ++ []) 0 =
          (digitsFold 8 0 (c2 :: ds2), decide ((c2 :: ds2) ≠ []), []) :=
        takeDigits_of_append 8 (c2 :: ds2) [] 0 hall (by simp)
      rw [List.append_nil] at htd
      rw [show strtoullBody neg ('0' :: c2 :: ds2) =
          some ((takeDigits 8 (c2 :: ds2) 0).1, neg, (takeDigits 8 (c2 :: ds2) 0).2.2) from by
        simp [strtoullBody, hx1, hx2, htd]]
      rw [htd]
      simp [hv, natOfDigitsB]
  · obtain ⟨hne, hall, hhead, hv⟩ := hdec
    cases num with
    | nil => exact absurd rfl hne
    | cons c t =>
      have hc0 : c ≠ '0' := by
        intro he
        subst he
        simp at hhead
      have htd : takeDigits 10 ((c :: t) ++ []) 0 =
          (digitsFold 10 0 (c :: t), decide ((c :: t) ≠ []), []) :=
        takeDigits_of_append 10 (c :: t) [] 0 hall (by simp)
      rw [List.append_nil] at htd
      cases t with
      | nil =>
        rw [show strtoullBody neg [c] =
            some ((takeDigits 10 [c] 0).1, neg, (takeDigits 10 [c] 0).2.2) from by
          simp [strtoullBody, hc0, htd]]
        rw [htd]
        simp [hv, natOfDigitsB]
      | cons c2 t2 =>
        rw [show strtoullBody neg (c :: c2 :: t2) =
            some ((takeDigits 10 (c :: c2 :: t2) 0).1, neg,
              (takeDigits 10 (c :: c2 :: t2) 0).2.2) from by
          simp [strtoullBody, hc0, htd]]
        rw [htd]
        simp [hv, natOfDigitsB]

theorem numeral_head (num : List Char) (v : Nat)
    (h : hexNumeral num v ∨ octNumeral num v ∨ decNumeral num v) :
    ∃ c t, num = c :: t ∧ 48 ≤ c.toNat ∧ c.toNat ≤ 57 := by
  rcases h with ⟨x, ds, _, hnum, _⟩ | ⟨ds, hnum, _⟩ | ⟨hne, hall, _, _⟩
  · exact ⟨'0', _, hnum, by decide, by decide⟩
  · exact ⟨'0', ds, hnum, by decide, by decide⟩
  · cases num with
    | nil => exact absurd rfl hne
    | cons c t => exact ⟨c, t, rfl, digitValB_ten c (hall c (by simp))⟩

/-- C8 (amended): `parseKernelConfigInt(s, int64_t*)` succeeds exactly on
the strings the base-0 `strtoull` syntax accepts in full — optional
whitespace, an optional sign, then a hex (`0x…`), octal (leading `0`) or
decimal (no leading zero) numeral — whose signed value `n` satisfies
`-(2^64) < n < 2^64`; it stores the `int64_t` whose two's-complement bit
pattern is `n` modulo `2^64`. A decimal string with a redundant leading
zero is read as octal, so the original claim fails on such strings; the
function is total by construction. -/
theorem parseKernelConfigInt_char (s : String) (i : Int) :
    parseKernelConfigInt s = some i ↔
      ∃ n : Int, base0Denotes s n ∧ -(2 ^ 64 : Int) < n ∧ n < 2 ^ 64 ∧
        i = int64OfNatWrap (Int.toNat (n % 2 ^ 64)) := by
  constructor
  · intro h
    unfold parseKernelConfigInt at h
    rcases hm : strtoullM s.toList with _ | ⟨⟨mv, mneg, mrest⟩⟩
    · rw [hm] at h
      simp at h
    · rw [hm] at h
      cases mrest with
      | cons a l => simp at h
      | nil =>
        have h2 : (if mv < 2 ^ 64 then
            some (int64OfNatWrap (if mneg then (2 ^ 64 - mv % 2 ^ 64) % 2 ^ 64 else mv))
          else none) = some i := h
        by_cases hv : mv < 2 ^ 64
        · rw [if_pos hv] at h2
          have hi : int64OfNatWrap (if mneg then (2 ^ 64 - mv % 2 ^ 64) % 2 ^ 64 else mv) = i :=
            Option.some.inj h2
          unfold strtoullM at hm
          rcases hr : readSign (dropSpaces s.toList) with ⟨neg2, cs2⟩
          rw [hr] at hm
          obtain ⟨hng, hnumeral⟩ := strtoullBody_sound neg2 cs2 mv mneg hm
          obtain ⟨w, hsplit, hw, hhead⟩ := dropSpaces_split s.toList
          cases hcase : dropSpaces s.toList with
          | nil =>
            rw [hcase] at hr
            rw [show readSign [] = ((false : Bool), ([] : List Char)) from rfl] at hr
            injection hr with hA hB
            subst hA
            subst hB
            simp [strtoullBody] at hm
          | cons c t =>
            rw [hcase] at hr hsplit
            by_cases hc1 : c = '-'
            · subst hc1
              rw [show readSign ('-' :: t) = (true, t) from by simp [readSign]] at hr
              injection hr with hA hB
              subst hA
              subst hB
              rw [hng] at hi
              refine ⟨-(mv : Int), ⟨w, ['-'], t, mv, ?_, hw, by simp, hnumeral, ?_⟩,
                by omega, by omega, ?_⟩
              · rw [hsplit]
                simp
              · rw [if_pos rfl]
              · have harg : Int.toNat ((-(mv : Int)) % 2 ^ 64) =
                    (2 ^ 64 - mv % 2 ^ 64) % 2 ^ 64 := by
                  omega
                rw [harg]
                exact hi.symm
            · by_cases hc2 : c = '+'
              · subst hc2
                rw [show readSign ('+' :: t) = (false, t) from by simp [readSign]] at hr
                injection hr with hA hB
                subst hA
                subst hB
                rw [hng] at hi
                refine ⟨(mv : Int), ⟨w, ['+'], t, mv, ?_, hw, by simp, hnumeral, ?_⟩,
                  by omega, by omega, ?_⟩
                · rw [hsplit]
                  simp
                · rw [if_neg (by decide)]
                · have harg : Int.toNat ((mv : Int) % 2 ^ 64) = mv := by
                    omega
                  rw [harg]
                  exact hi.symm
              · rw [show readSign (c :: t) = (false, c :: t) from by
                  simp [readSign, hc1, hc2]] at hr
                injection hr with hA hB
                subst hA
                subst hB
                rw [hng] at hi
                refine ⟨(mv : Int), ⟨w, [], c :: t, mv, ?_, hw, by simp, hnumeral, ?_⟩,
                  by omega, by omega, ?_⟩
                · rw [hsplit]
                  simp
                · rw [if_neg (by decide)]
                · have harg : Int.toNat ((mv : Int) % 2 ^ 64) = mv := by
                    omega
                  rw [harg]
                  exact hi.symm
        · rw [if_neg hv] at h2
          cases h2
  · rintro ⟨n, ⟨w, sg, num, v, hsplit, hw, hsg, hnumeral, hn⟩, hlb, hub, hi⟩
    obtain ⟨hc, ht0, hnumeq, hh1, hh2⟩ := numeral_head num v hnumeral
    rcases hsg with hsg | hsg | hsg <;> subst hsg
    · rw [if_neg (by decide : ¬(([] : List Char) = ['-']))] at hn
      have hv : v < 2 ^ 64 := by omega
      have hcm : hc ≠ '-' := by
        intro he
        rw [he] at hh1
        have h45 : ('-').toNat = 45 := rfl
        omega
      have hcp : hc ≠ '+' := by
        intro he
        rw [he] at hh1
        have h43 : ('+').toNat = 43 := rfl
        omega
      have hd : dropSpaces s.toList = num := by
        rw [hsplit]
        rw [show w ++ [] ++ num = w ++ num from by simp]
        exact dropSpaces_of_append w num hw (by
          intro x r2 hx
          rw [hnumeq] at hx
          injection hx with hx1 _
          rw [← hx1]
          exact not_space_of_ge hc (by omega))
      have hrs : readSign num = (false, num) := by
        rw [hnumeq]
        simp [readSign, hcm, hcp]
      have hm : strtoullM s.toList = some (v, false, []) := by
        unfold strtoullM
        rw [hd, hrs]
        exact strtoullBody_complete false num v hnumeral
      unfold parseKernelConfigInt
      rw [hm]
      have harg : Int.toNat (n % 2 ^ 64) = v := by omega
      have hfin : (if v < 2 ^ 64 then some (int64OfNatWrap v) else none) = some i := by
        rw [if_pos hv, hi, harg]
      exact hfin
    · rw [if_neg (by decide : ¬((['+'] : List Char) = ['-']))] at hn
      have hv : v < 2 ^ 64 := by omega
      have hd : dropSpaces s.toList = '+' :: num := by
        rw [hsplit, List.append_assoc]
        exact dropSpaces_of_append w (['+'] ++ num) hw (by
          intro x r2 hx
          injection hx with hx1 _
          rw [← hx1]
          decide)
      have hm : strtoullM s.toList = some (v, false, []) := by
        unfold strtoullM
        rw [hd]
        rw [show readSign ('+' :: num) = (false, num) from by simp [readSign]]
        exact strtoullBody_complete false num v hnumeral
      unfold parseKernelConfigInt
      rw [hm]
      have harg : Int.toNat (n % 2 ^ 64) = v := by omega
      have hfin : (if v < 2 ^ 64 then some (int64OfNatWrap v) else none) = some i := by
        rw [if_pos hv, hi, harg]
      exact hfin
    · rw [if_pos rfl] at hn
      have hv : v < 2 ^ 64 := by omega
      have hd : dropSpaces s.toList = '-' :: num := by
        rw [hsplit, List.append_assoc]
        exact dropSpaces_of_append w (['-'] ++ num) hw (by
          intro x r2 hx
          injection hx with hx1 _
          rw [← hx1]
          decide)
      have hm : strtoullM s.toList = some (v, true, []) := by
        unfold strtoullM
        rw [hd]
        rw [show readSign ('-' :: num) = (true, num) from by simp [readSign]]
        exact strtoullBody_complete true num v hnumeral
      unfold parseKernelConfigInt
      rw [hm]
      have harg : Int.toNat (n % 2 ^ 64) = (2 ^ 64 - v % 2 ^ 64) % 2 ^ 64 := by omega
      have hfin : (if v < 2 ^ 64 then
          some (int64OfNatWrap ((2 ^ 64 - v % 2 ^ 64) % 2 ^ 64)) else none) = some i := by
        rw [if_pos hv, hi, harg]
      exact hfin

theorem parseFilesLoop_out (pf : String → Option (List KernelConfig)) (paths : List String)
    (common : List KernelConfig) (found : Bool)
    (out : List (Option KernelConfig × List KernelConfig)) (ret : Bool)
    (hout : ∀ e ∈ out, e.1 ≠ none) :
    ∀ e ∈ (parseFilesLoop pf paths common found out ret).2.2.1, e.1 ≠ none := by
  induction paths generalizing common found out ret with
  | nil => simpa [parseFilesLoop] using hout
  | cons p ps ih =>
    cases ret with
    | false => simpa [parseFilesLoop] using hout
    | true =>
      by_cases hcc : isCommonConfig p = true
      · cases hpf : pf p with
        | some cfgs =>
          rw [show parseFilesLoop pf (p :: ps) common found out true =
              parseFilesLoop pf ps (common ++ cfgs) true out true from by
            simp [parseFilesLoop, hcc, hpf]]
          exact ih (common ++ cfgs) true out true hout
        | none =>
          rw [show parseFilesLoop pf (p :: ps) common found out true =
              parseFilesLoop pf ps common true out false from by
            simp [parseFilesLoop, hcc, hpf]]
          exact ih common true out false hout
      · cases hpf : pf p with
        | some cfgs =>
          rw [show parseFilesLoop pf (p :: ps) common found out true =
              parseFilesLoop pf ps common found
                (if (generateCondition p).isSome then
                  out ++ [(generateCondition p, cfgs)] else out)
                ((generateCondition p).isSome) from by
            simp [parseFilesLoop, hcc, hpf]]
          by_cases hg : (generateCondition p).isSome = true
          · rw [if_pos hg]
            refine ih common found _ _ ?_
            intro e he
            rcases List.mem_append.mp he with he | he
            · exact hout e he
            · rcases List.mem_singleton.mp he with rfl
              simp only []
              intro hnone
              rw [hnone] at hg
              simp at hg
          · rw [if_neg hg]
            exact ih common found out _ hout
        | none =>
          rw [show parseFilesLoop pf (p :: ps) common found out true =
              parseFilesLoop pf ps common found out false from by
            simp [parseFilesLoop, hcc, hpf]]
          exact ih common found out false hout

theorem parseFilesLoop_found (pf : String → Option (List KernelConfig)) (paths : List String)
    (common : List KernelConfig) (out : List (Option KernelConfig × List KernelConfig))
    (ret : Bool) (h : ∀ p ∈ paths, isCommonConfig p = false) :
    (parseFilesLoop pf paths common false out ret).2.1 = false := by
  induction paths generalizing common out ret with
  | nil => simp [parseFilesLoop]
  | cons p ps ih =>
    cases ret with
    | false => simp [parseFilesLoop]
    | true =>
      have hcc : isCommonConfig p = false := h p (by simp)
      cases hpf : pf p with
      | some cfgs =>
        rw [show parseFilesLoop pf (p :: ps) common false out true =
            parseFilesLoop pf ps common false
              (if (generateCondition p).isSome then
                out ++ [(generateCondition p, cfgs)] else out)
              ((generateCondition p).isSome) from by
          simp [parseFilesLoop, hcc, hpf]]
        exact ih common _ _ (fun q hq => h q (by simp [hq]))
      | none =>
        rw [show parseFilesLoop pf (p :: ps) common false out true =
            parseFilesLoop pf ps common false out false from by
          simp [parseFilesLoop, hcc, hpf]]
        exact ih common out false (fun q hq => h q (by simp [hq]))

theorem assembleKernels_mem (pf : String → Option (List KernelConfig))
    (ks : List (Version × List String)) (res : List MatrixKernel)
    (h : assembleFrameworkKernels pf ks = some res) :
    ∀ k ∈ res, ∃ pr ∈ ks, k.mVersion = ⟨pr.1.majorVer, pr.1.minorVer, 0⟩ := by
  induction ks generalizing res with
  | nil =>
    simp [assembleFrameworkKernels] at h
    subst h
    intro k hk
    simp at hk
  | cons hd rest ih =>
    obtain ⟨v, paths⟩ := hd
    rcases hp : parseFilesForKernelConfigs pf paths with ⟨ccs, retb⟩
    cases retb with
    | false =>
      rw [show assembleFrameworkKernels pf ((v, paths) :: rest) = none from by
        simp [assembleFrameworkKernels, hp]] at h
      cases h
    | true =>
      cases ha : assembleFrameworkKernels pf rest with
      | none =>
        rw [show assembleFrameworkKernels pf ((v, paths) :: rest) = none from by
          simp [assembleFrameworkKernels, hp, ha]] at h
        cases h
      | some ks2 =>
        rw [show assembleFrameworkKernels pf ((v, paths) :: rest) =
            some (ccs.map (toMatrixKernel v) ++ ks2) from by
          simp [assembleFrameworkKernels, hp, ha]] at h
        obtain rfl := Option.some.inj h
        intro k hk
        rcases List.mem_append.mp hk with hk | hk
        · obtain ⟨cc, _, rfl⟩ := List.mem_map.mp hk
          exact ⟨(v, paths), by simp, rfl⟩
        · obtain ⟨pr, hpr, hv⟩ := ih ks2 ha k hk
          exact ⟨pr, by simp [hpr], hv⟩

theorem kernelVersion_inj {a b : Version}
    (h : (⟨a.majorVer, a.minorVer, 0⟩ : KernelVersion) = ⟨b.majorVer, b.minorVer, 0⟩) :
    a = b := by
  obtain ⟨am, an⟩ := a
  obtain ⟨bm, bn⟩ := b
  simpa using h

theorem parseFiles_success_shape (pf : String → Option (List KernelConfig))
    (paths : List String) (out : List (Option KernelConfig × List KernelConfig))
    (h : parseFilesForKernelConfigs pf paths = (out, true)) :
    ∃ c rest, out = (none, c) :: rest ∧ ∀ e ∈ rest, e.1 ≠ none := by
  unfold parseFilesForKernelConfigs at h
  rcases hl : parseFilesLoop pf paths [] false [] true with ⟨common, found, outAcc, ret⟩
  rw [hl] at h
  injection h with h1 h2
  refine ⟨common, outAcc, h1.symm, ?_⟩
  have hall := parseFilesLoop_out pf paths [] false [] true (by simp)
  rw [hl] at hall
  simpa using hall

theorem assembleKernels_filter (pf : String → Option (List KernelConfig))
    (kernels : List (Version × List String)) (res : List MatrixKernel)
    (h : assembleFrameworkKernels pf kernels = some res)
    (hdist : List.Pairwise (fun a b => a.1 ≠ b.1) kernels) :
    ∀ pr ∈ kernels,
      ∃ first rest2,
        res.filter (fun k => decide (k.mVersion =
            (⟨pr.1.majorVer, pr.1.minorVer, 0⟩ : KernelVersion))) = first :: rest2 ∧
          first.mConditions = [] ∧ ∀ e ∈ rest2, ∃ c, e.mConditions = [c] := by
  induction kernels generalizing res with
  | nil =>
    intro pr hpr
    simp at hpr
  | cons hd rest ih =>
    obtain ⟨v, paths⟩ := hd
    rcases hp : parseFilesForKernelConfigs pf paths with ⟨ccs, retb⟩
    cases retb with
    | false =>
      rw [show assembleFrameworkKernels pf ((v, paths) :: rest) = none from by
        simp [assembleFrameworkKernels, hp]] at h
      cases h
    | true =>
      cases ha : assembleFrameworkKernels pf rest with
      | none =>
        rw [show assembleFrameworkKernels pf ((v, paths) :: rest) = none from by
          simp [assembleFrameworkKernels, hp, ha]] at h
        cases h
      | some ks2 =>
        rw [show assembleFrameworkKernels pf ((v, paths) :: rest) =
            some (ccs.map (toMatrixKernel v) ++ ks2) from by
          simp [assembleFrameworkKernels, hp, ha]] at h
        obtain rfl := Option.some.inj h
        intro pr hpr
        rcases List.mem_cons.mp hpr with rfl | hmem
        · rw [List.filter_append]
          have hks2 : ks2.filter (fun k => decide (k.mVersion =
              (⟨v.majorVer, v.minorVer, 0⟩ : KernelVersion))) = [] := by
            rw [List.filter_eq_nil_iff]
            intro k hk
            obtain ⟨pr2, hpr2, hveq⟩ := assembleKernels_mem pf rest ks2 ha k hk
            have hne : v ≠ pr2.1 := (List.pairwise_cons.mp hdist).1 pr2 hpr2
            simp only [hveq, decide_eq_true_eq]
            intro he
            exact hne (kernelVersion_inj he).symm
          have hblock : (ccs.map (toMatrixKernel v)).filter (fun k => decide (k.mVersion =
              (⟨v.majorVer, v.minorVer, 0⟩ : KernelVersion))) = ccs.map (toMatrixKernel v) := by
            rw [List.filter_eq_self]
            intro k hk
            obtain ⟨cc, _, rfl⟩ := List.mem_map.mp hk
            simp [toMatrixKernel]
          rw [hks2, hblock, List.append_nil]
          obtain ⟨c, rest3, hccs, hrest3⟩ := parseFiles_success_shape pf paths ccs hp
          subst hccs
          refine ⟨toMatrixKernel v (none, c), rest3.map (toMatrixKernel v), by simp, rfl, ?_⟩
          intro e he
          obtain ⟨cc, hcc, rfl⟩ := List.mem_map.mp he
          have hnn := hrest3 cc hcc
          cases hcc1 : cc.1 with
          | none => exact absurd hcc1 hnn
          | some cx => exact ⟨cx, by simp [toMatrixKernel, condList, hcc1]⟩
        · rw [List.filter_append]
          have hblock : (ccs.map (toMatrixKernel v)).filter (fun k => decide (k.mVersion =
              (⟨pr.1.majorVer, pr.1.minorVer, 0⟩ : KernelVersion))) = [] := by
            rw [List.filter_eq_nil_iff]
            intro k hk
            obtain ⟨cc, _, rfl⟩ := List.mem_map.mp hk
            have hne : v ≠ pr.1 := (List.pairwise_cons.mp hdist).1 pr hmem
            simp only [toMatrixKernel, decide_eq_true_eq]
            intro he
            exact hne (kernelVersion_inj he)
          rw [hblock, List.nil_append]
          exact ih ks2 ha (List.pairwise_cons.mp hdist).2 pr hmem

/-- C5: on success the conditioned list built by
`parseFilesForKernelConfigs` starts with the unconditional common
configuration (null condition) and every later element carries a
non-null condition; with no `android-base.cfg` among the paths the
function fails; and consequently, per kernel version (the keys of
`mKernels` are distinct), the first `MatrixKernel` entry appended by
`assembleFrameworkCompatibilityMatrixKernels` has empty conditions and
every later entry for that version carries exactly one condition. -/
theorem kernelConfigs_conditions_spec :
    (∀ (pf : String → Option (List KernelConfig)) (paths : List String)
        (out : List (Option KernelConfig × List KernelConfig)),
      parseFilesForKernelConfigs pf paths = (out, true) →
        ∃ c rest, out = (none, c) :: rest ∧ ∀ e ∈ rest, e.1 ≠ none) ∧
      (∀ (pf : String → Option (List KernelConfig)) (paths : List String),
        (∀ p ∈ paths, isCommonConfig p = false) →
          (parseFilesForKernelConfigs pf paths).2 = false) ∧
      (∀ (pf : String → Option (List KernelConfig))
          (kernels : List (Version × List String)) (res : List MatrixKernel),
        assembleFrameworkKernels pf kernels = some res →
          List.Pairwise (fun a b => a.1 ≠ b.1) kernels →
          ∀ pr ∈ kernels,
            ∃ first rest2,
              res.filter (fun k => decide (k.mVersion =
                  (⟨pr.1.majorVer, pr.1.minorVer, 0⟩ : KernelVersion))) = first :: rest2 ∧
                first.mConditions = [] ∧ ∀ e ∈ rest2, ∃ c, e.mConditions = [c]) := by
  refine ⟨parseFiles_success_shape, ?_, assembleKernels_filter⟩
  intro pf paths h
  unfold parseFilesForKernelConfigs
  rcases hl : parseFilesLoop pf paths [] false [] true with ⟨common, found, outAcc, ret⟩
  have hf := parseFilesLoop_found pf paths [] [] true h
  rw [hl] at hf
  simp at hf
  simp [hf]

/-- Witness for `kernelConfigs_conditions_spec` at concrete inputs. -/
theorem kernelConfigs_conditions_spec_witness :
    (∃ c rest, ([(none, []), (some kcfgFoo, [])] :
        List (Option KernelConfig × List KernelConfig)) = (none, c) :: rest ∧
        ∀ e ∈ rest, e.1 ≠ none) ∧
      (parseFilesForKernelConfigs pfEmpty ["android-base-foo.cfg"]).2 = false ∧
      (∃ first rest2,
        kres0.filter (fun k => decide (k.mVersion = (⟨4, 14, 0⟩ : KernelVersion))) =
            first :: rest2 ∧
          first.mConditions = [] ∧ ∀ e ∈ rest2, ∃ c, e.mConditions = [c]) :=
  ⟨kernelConfigs_conditions_spec.1 pfEmpty kpaths0 [(none, []), (some kcfgFoo, [])] (by decide),
    kernelConfigs_conditions_spec.2.1 pfEmpty ["android-base-foo.cfg"] (by decide),
    kernelConfigs_conditions_spec.2.2 pfEmpty [(⟨4, 14⟩, kpaths0)] kres0 (by decide)
      (by simp) (⟨4, 14⟩, kpaths0) (by simp)⟩
